import Mathlib

/-!
Verification of the `.env` upsert utility (`src/main.go`).

Go strings are modelled as `List Char` (`Str`).  The interactive stdin is
modelled as an explicit list of already-read lines (each line without its
trailing newline); reading past the end of the list yields the empty string,
which is what `bufio.Reader.ReadString` produces at EOF (the read error is
ignored by the program).  The backing file is modelled by its full text
content (`Str`); opening failures and write failures are modelled by explicit
parameters, since they are environment behaviour, not program logic.
-/

abbrev Str := List Char

instance {ε α : Type} [DecidableEq ε] [DecidableEq α] :
    DecidableEq (Except ε α) := fun a b =>
  match a, b with
  | .error x, .error y =>
    if h : x = y then .isTrue (by rw [h]) else
      .isFalse (by intro hc; cases hc; exact h rfl)
  | .error _, .ok _ => .isFalse (by intro hc; cases hc)
  | .ok _, .error _ => .isFalse (by intro hc; cases hc)
  | .ok x, .ok y =>
    if h : x = y then .isTrue (by rw [h]) else
      .isFalse (by intro hc; cases hc; exact h rfl)

/-- Error kinds of the two validators (spec section 7). -/
inductive ValidationError
  | InvalidCharacters
  | ForbiddenScript
deriving DecidableEq

/-- Go `unicode.IsSpace`: the Unicode White_Space code points. -/
def goIsSpace (c : Char) : Bool :=
  c == ' ' || c == '\t' || c == '\n' || c.toNat == 11 || c.toNat == 12 ||
  c == '\r' || c.toNat == 0x85 || c.toNat == 0xA0 || c.toNat == 0x1680 ||
  (decide (0x2000 ≤ c.toNat) && decide (c.toNat ≤ 0x200A)) ||
  c.toNat == 0x2028 || c.toNat == 0x2029 || c.toNat == 0x202F ||
  c.toNat == 0x205F || c.toNat == 0x3000

/-- Go `strings.TrimSpace`: drop White_Space characters from both ends. -/
def trimSpace (s : Str) : Str :=
  ((s.dropWhile goIsSpace).reverse.dropWhile goIsSpace).reverse

/-- Go `strings.ToUpper`, restricted to ASCII.  The spec (section 4.1, step 3)
declares the behaviour on non-ASCII letters implementation-defined; non-ASCII
characters are modelled as unchanged.  All claims only exercise the ASCII
part, and the `[A-Z_]+` gate below is insensitive to this choice. -/
def goToUpper (c : Char) : Char :=
  if 'a' ≤ c ∧ c ≤ 'z' then Char.ofNat (c.toNat - 32) else c

/-- Go `strings.ToLower`, restricted to ASCII (see `goToUpper`). -/
def goToLower (c : Char) : Char :=
  if 'A' ≤ c ∧ c ≤ 'Z' then Char.ofNat (c.toNat + 32) else c

/-- One character of the class `[A-Z_]`. -/
def isKeyChar (c : Char) : Bool :=
  (decide ('A' ≤ c) && decide (c ≤ 'Z')) || c == '_'

/-- `formatAndValidateKey` (main.go:12-27): trim, replace spaces by
underscores, upper-case, require a full match of `^[A-Z_]+$` (equivalently:
non-empty and every character in the class), then append `_KEY` unless the
string already ends in `_KEY`. -/
def formatAndValidateKey (input : Str) : Except ValidationError Str :=
  let s1 := trimSpace input
  let s2 := s1.map (fun c => if c == ' ' then '_' else c)
  let s3 := s2.map goToUpper
  if !s3.isEmpty && s3.all isKeyChar then
    if ("_KEY".data).isSuffixOf s3 then .ok s3 else .ok (s3 ++ "_KEY".data)
  else
    .error .InvalidCharacters

/-- One character of the Go regexp class `[а-яА-ЯёЁ]` (main.go:32). -/
def isCyrillic (c : Char) : Bool :=
  (decide ('а' ≤ c) && decide (c ≤ 'я')) ||
  (decide ('А' ≤ c) && decide (c ≤ 'Я')) || c == 'ё' || c == 'Ё'

/-- `validateValue` (main.go:30-37): trim, reject if any character matches
`[а-яА-ЯёЁ]`, otherwise return the trimmed string. -/
def validateValue (input : Str) : Except ValidationError Str :=
  if (trimSpace input).any isCyrillic then .error .ForbiddenScript
  else .ok (trimSpace input)

/-- Split file content at newline characters (one part more than the number
of newlines; never returns `[]`). -/
def splitOnNl : Str → List Str
  | [] => [[]]
  | c :: rest =>
    if c = '\n' then [] :: splitOnNl rest
    else
      match splitOnNl rest with
      | l :: ls => (c :: l) :: ls
      | [] => [[c]]

/-- `bufio.ScanLines` drops one final carriage return from each line. -/
def dropFinalCR (l : Str) : Str :=
  if l.getLast? = some '\r' then l.dropLast else l

/-- The sequence of lines a `bufio.Scanner` with `ScanLines` produces from
the given content: split at newlines, a trailing newline yields no final
empty token, and each token loses one final `'\r'`. -/
def scanLines (content : Str) : List Str :=
  (if (splitOnNl content).getLast? = some [] then (splitOnNl content).dropLast
   else splitOnNl content).map dropFinalCR

/-- Go `strings.SplitN(line, "=", 2)`: `none` when the line has no `'='`,
otherwise the parts before and after the first `'='`. -/
def splitFirstEq : Str → Option (Str × Str)
  | [] => none
  | c :: rest =>
    if c = '=' then some ([], rest)
    else
      match splitFirstEq rest with
      | some (k, v) => some (c :: k, v)
      | none => none

/-- A Go `map[string]string` snapshot: an association list with pairwise
distinct keys (iteration order is unspecified, the list order stands for
one such order). -/
abbrev EnvMap := List (Str × Str)

/-- Go map read `m[k]`. -/
def lookupEnv : EnvMap → Str → Option Str
  | [], _ => none
  | (k, v) :: rest, q => if k = q then some v else lookupEnv rest q

/-- Go map write `m[k] = v`: replace the binding if the key is present,
otherwise add it. -/
def insertEnv : EnvMap → Str → Str → EnvMap
  | [], k, v => [(k, v)]
  | (k', v') :: rest, k, v =>
    if k' = k then (k, v) :: rest else (k', v') :: insertEnv rest k v

/-- Body of the scan loop of `readEnvFileToMap` (main.go:66-75): skip lines
that trim to empty or whose raw first character is `'#'`; split the rest at
the first `'='` (no `'='` means the line is skipped); insert the trimmed key
and trimmed value. -/
def processLine (env : EnvMap) (line : Str) : EnvMap :=
  if trimSpace line = [] ∨ line.head? = some '#' then env
  else
    match splitFirstEq line with
    | some (k, v) => insertEnv env (trimSpace k) (trimSpace v)
    | none => env

/-- `readEnvFileToMap` (main.go:56-77) applied to the file content (the
open-failure case is handled by the caller model). -/
def readEnvContent (content : Str) : EnvMap :=
  (scanLines content).foldl processLine []

/-- One serialized record `KEY=VALUE` (main.go:83). -/
def envLine (p : Str × Str) : Str := p.1 ++ '=' :: p.2

/-- Go `strings.Join(lines, "\n")`. -/
def joinNl : List Str → Str
  | [] => []
  | [l] => l
  | l :: ls => l ++ '\n' :: joinNl ls

/-- `writeEnvMap` (main.go:80-86): the file content written, namely all
records joined by newlines plus a final newline. -/
def writeEnvContent (m : EnvMap) : Str :=
  joinNl (m.map envLine) ++ ['\n']

/-- The bounded re-entry loop of `promptOverwriteConfirmation`
(main.go:100-110): up to `fuel` attempts, each reading the next stdin line
(empty at EOF), trimming it and comparing it literally to the current
value. -/
def confirmValueAttempts (currentValue : Str) : List Str → Nat → Bool
  | _, 0 => false
  | lines, n + 1 =>
    if trimSpace (lines.headD []) = currentValue then true
    else confirmValueAttempts currentValue lines.tail n

/-- `promptOverwriteConfirmation` (main.go:89-114): the first line is the
intent answer, trimmed and lower-cased; anything other than `yes` refuses
immediately; otherwise up to 3 re-entry attempts must match the current
value.  `originalInput` is only displayed. -/
def promptOverwriteConfirmation (originalInput : Str) (confirmLine : Str)
    (attemptLines : List Str) (currentValue : Str) : Bool :=
  if (trimSpace confirmLine).map goToLower ≠ "yes".data then false
  else confirmValueAttempts currentValue attemptLines 3

/-- The value returned by `AddOrUpdateEnvVarSecure` (the Go triple
`(added, updated, err)`) together with the trace of `writeEnvMap` calls it
performed (the mapping passed to each call, in order). -/
structure UpsertResult where
  added : Bool
  updated : Bool
  err : Bool
  writes : List EnvMap
deriving DecidableEq

/-- `AddOrUpdateEnvVarSecure` (main.go:117-136).  `loadedContent` is the
result of opening/reading the file (`Except.error` for an open failure, in
which case Go returns the error before any prompt); `writeFails` tells
whether a `writeEnvMap` call would fail. -/
def AddOrUpdateEnvVarSecure (loadedContent : Except Unit Str)
    (originalInput : Str) (key value : Str) (confirmLine : Str)
    (attemptLines : List Str) (writeFails : Bool) : UpsertResult :=
  match loadedContent with
  | .error _ => ⟨false, false, true, []⟩
  | .ok content =>
    let envMap := readEnvContent content
    match lookupEnv envMap key with
    | some currentValue =>
      if promptOverwriteConfirmation originalInput confirmLine attemptLines
          currentValue then
        ⟨false, true, writeFails, [insertEnv envMap key value]⟩
      else ⟨false, false, false, []⟩
    | none => ⟨true, false, writeFails, [insertEnv envMap key value]⟩

/-- The four terminal outcomes of the update controller (spec section 4.5). -/
inductive Outcome
  | added
  | updated
  | cancelled
  | ioError
deriving DecidableEq

/-- How `main` classifies the triple returned by `AddOrUpdateEnvVarSecure`
(main.go:156-165): an error takes precedence, then the two flags. -/
def outcomeOf (r : UpsertResult) : Outcome :=
  if r.err then .ioError
  else if r.added then .added
  else if r.updated then .updated
  else .cancelled

/-- `promptValidInput` (main.go:40-53): read a line, trim it, run the
validator; on rejection repeat with the rest of the input.  Returns the
validated value and the unconsumed lines; `none` models the infinite
re-prompt loop that Go enters when stdin is exhausted and the validator
rejects the empty string forever. -/
def promptValidInput (validator : Str → Except ValidationError Str) :
    List Str → Option (Str × List Str)
  | [] =>
    match validator (trimSpace []) with
    | .ok x => some (x, [])
    | .error _ => none
  | l :: rest =>
    match validator (trimSpace l) with
    | .ok x => some (x, rest)
    | .error _ => promptValidInput validator rest

/-- How a run of `main` (main.go:138-166) ends. -/
inductive MainResult
  | loops
  | keyRejected
  | finished (r : UpsertResult)
deriving DecidableEq

/-- `main` (main.go:138-166): the key prompt uses the always-accepting
identity validator; the key is then formatted separately and a rejection
prints the error and returns (process ends); the value prompt loops on
`validateValue`; finally `AddOrUpdateEnvVarSecure` consumes the remaining
stdin lines for the confirmation dialogue. -/
def runMain (lines : List Str) (loadedContent : Except Unit Str)
    (writeFails : Bool) : MainResult :=
  match promptValidInput (fun s => .ok s) lines with
  | none => .loops
  | some (originalKeyInput, rest1) =>
    match formatAndValidateKey originalKeyInput with
    | .error _ => .keyRejected
    | .ok formattedKey =>
      match promptValidInput validateValue rest1 with
      | none => .loops
      | some (value, rest2) =>
        .finished (AddOrUpdateEnvVarSecure loadedContent originalKeyInput
          formattedKey value (rest2.headD []) rest2.tail writeFails)

/-- Modelled from the spec (section 4.1): the normalization sequence as the
spec words it — trim, replace spaces with underscores, upper-case, reject
unless the result is one or more characters of `[A-Z_]`, then append `_KEY`
only when the string does not already end in `_KEY`.  Used to compare the
spec's sequence against `formatAndValidateKey`. -/
def normalizeSpec (raw : Str) : Except ValidationError Str :=
  let s := ((trimSpace raw).map fun c => if c == ' ' then '_' else c).map
    goToUpper
  if s.isEmpty || !(s.all isKeyChar) then .error .InvalidCharacters
  else .ok (if ("_KEY".data).isSuffixOf s then s else s ++ "_KEY".data)

/-- The regex `^[A-Z_]+_KEY$` of claim C6: at least one `[A-Z_]` character,
then the literal suffix `_KEY`. -/
def keyPatternPlus (s : Str) : Prop :=
  ∃ p, p ≠ [] ∧ (∀ c ∈ p, isKeyChar c = true) ∧ s = p ++ "_KEY".data

/-- The relaxed pattern `^[A-Z_]*_KEY$`: only `[A-Z_]` characters, non-empty,
ending in the literal suffix `_KEY` (the prefix before `_KEY` may be empty). -/
def keyPatternStar (s : Str) : Prop :=
  s ≠ [] ∧ (∀ c ∈ s, isKeyChar c = true) ∧ "_KEY".data <:+ s

/-- ASCII letters, digits and punctuation: the input domain named by
claim C6. -/
def isLetterDigitPunct (c : Char) : Bool :=
  c.isAlpha || c.isDigit ||
  (decide (33 ≤ c.toNat) && decide (c.toNat ≤ 47)) ||
  (decide (58 ≤ c.toNat) && decide (c.toNat ≤ 64)) ||
  (decide (91 ≤ c.toNat) && decide (c.toNat ≤ 96)) ||
  (decide (123 ≤ c.toNat) && decide (c.toNat ≤ 126))

/-- A Cyrillic letter in the sense of the spec (section 4.2): the basic
ranges а–я and А–Я plus ё/Ё (which sit outside those two ranges).  The
phrase "basic Cyrillic block plus ё/Ё" is read this way: ё/Ё belong to the
Unicode Cyrillic block, so the "plus" is only meaningful for the а–я/А–Я
ranges of the basic Russian alphabet. -/
def CyrillicLetter (c : Char) : Prop :=
  ('а' ≤ c ∧ c ≤ 'я') ∨ ('А' ≤ c ∧ c ≤ 'Я') ∨ c = 'ё' ∨ c = 'Ё'

instance (c : Char) : Decidable (CyrillicLetter c) := by
  unfold CyrillicLetter; infer_instance

/-- The per-entry premise of the round-trip claim C8, amended: the key and
the value contain no `'='` and no newline, the key does not start with
`'#'`, and — the amendment — neither key nor value carries leading or
trailing whitespace (the store reader trims both portions, so an entry
with padded key or value cannot survive a round trip). -/
def RoundtripEntryOk (p : Str × Str) : Prop :=
  '=' ∉ p.1 ∧ '=' ∉ p.2 ∧ p.1.head? ≠ some '#' ∧
  '\n' ∉ p.1 ∧ '\n' ∉ p.2 ∧
  (p.1.head?.all fun c => !goIsSpace c) = true ∧
  (p.1.getLast?.all fun c => !goIsSpace c) = true ∧
  (p.2.head?.all fun c => !goIsSpace c) = true ∧
  (p.2.getLast?.all fun c => !goIsSpace c) = true

instance (p : Str × Str) : Decidable (RoundtripEntryOk p) := by
  unfold RoundtripEntryOk; infer_instance

/-! ### Association-list lemmas for the Go map model -/

theorem lookupEnv_insertEnv_self (m : EnvMap) (k v : Str) :
    lookupEnv (insertEnv m k v) k = some v := by
  induction m with
  | nil => simp [insertEnv, lookupEnv]
  | cons p rest ih =>
    obtain ⟨k', v'⟩ := p
    by_cases h : k' = k
    · simp [insertEnv, h, lookupEnv]
    · simp [insertEnv, h, lookupEnv, ih]

theorem lookupEnv_insertEnv_ne (m : EnvMap) (k v q : Str) (hq : q ≠ k) :
    lookupEnv (insertEnv m k v) q = lookupEnv m q := by
  have hkq : ¬ k = q := fun h => hq h.symm
  induction m with
  | nil =>
    simp only [insertEnv, lookupEnv]
    rw [if_neg hkq]
  | cons p rest ih =>
    obtain ⟨k', v'⟩ := p
    by_cases h : k' = k
    · subst h
      simp only [insertEnv, if_pos rfl, lookupEnv]
      rw [if_neg hkq, if_neg hkq]
    · simp only [insertEnv, if_neg h, lookupEnv]
      rw [ih]

/-! ### The bounded confirmation loop -/

theorem getD_zero_headD (l : List Str) : l.getD 0 [] = l.headD [] := by
  cases l <;> rfl

theorem getD_tail (l : List Str) (i : Nat) :
    l.tail.getD i [] = l.getD (i + 1) [] := by
  cases l with
  | nil => simp [List.getD]
  | cons a t => simp [List.getD]

theorem confirmValueAttempts_iff (cur : Str) (lines : List Str) (n : Nat) :
    confirmValueAttempts cur lines n = true ↔
      ∃ i, i < n ∧ trimSpace (lines.getD i []) = cur := by
  induction n generalizing lines with
  | zero => simp [confirmValueAttempts]
  | succ n ih =>
    simp only [confirmValueAttempts]
    by_cases h : trimSpace (lines.headD []) = cur
    · rw [if_pos h]
      constructor
      · intro _
        exact ⟨0, Nat.succ_pos n, by rw [getD_zero_headD]; exact h⟩
      · intro _; rfl
    · rw [if_neg h, ih]
      constructor
      · rintro ⟨i, hi, he⟩
        rw [getD_tail] at he
        exact ⟨i + 1, Nat.succ_lt_succ hi, he⟩
      · rintro ⟨i, hi, he⟩
        cases i with
        | zero =>
          rw [getD_zero_headD] at he
          exact absurd he h
        | succ j =>
          rw [← getD_tail] at he
          exact ⟨j, Nat.lt_of_succ_lt_succ hi, he⟩

theorem promptOverwriteConfirmation_true_iff (orig confirm : Str)
    (attempts : List Str) (cur : Str) :
    promptOverwriteConfirmation orig confirm attempts cur = true ↔
      ((trimSpace confirm).map goToLower = "yes".data ∧
        ∃ i, i < 3 ∧ trimSpace (attempts.getD i []) = cur) := by
  unfold promptOverwriteConfirmation
  by_cases h : (trimSpace confirm).map goToLower = "yes".data
  · rw [if_neg (by simp [h])]
    rw [confirmValueAttempts_iff]
    simp [h]
  · rw [if_pos h]
    simp [h]

/-! ### Claims C1-C4: the update controller -/

/-- Claim C1: when `canonicalKey` is already present, an affirmative
case-insensitive `yes` intent followed by a re-entry attempt (among the at
most 3) that equals the stored value makes `upsert` report `Updated`
(or propagate the write `IOError`), write exactly the updated mapping, and
that mapping maps the key to the new value and leaves every other entry
unchanged. -/
theorem C1_present_yes_match_updated
    (content origInput key value confirm : Str) (attempts : List Str)
    (writeFails : Bool) (cur : Str)
    (hpresent : lookupEnv (readEnvContent content) key = some cur)
    (hyes : (trimSpace confirm).map goToLower = "yes".data)
    (hmatch : ∃ i, i < 3 ∧ trimSpace (attempts.getD i []) = cur) :
    (AddOrUpdateEnvVarSecure (.ok content) origInput key value confirm
        attempts writeFails).updated = true ∧
    (AddOrUpdateEnvVarSecure (.ok content) origInput key value confirm
        attempts writeFails).writes =
      [insertEnv (readEnvContent content) key value] ∧
    lookupEnv (insertEnv (readEnvContent content) key value) key =
      some value ∧
    (∀ q, q ≠ key →
      lookupEnv (insertEnv (readEnvContent content) key value) q =
        lookupEnv (readEnvContent content) q) ∧
    outcomeOf (AddOrUpdateEnvVarSecure (.ok content) origInput key value
        confirm attempts writeFails) =
      (if writeFails then Outcome.ioError else Outcome.updated) := by
  have hp : promptOverwriteConfirmation origInput confirm attempts cur
      = true :=
    (promptOverwriteConfirmation_true_iff origInput confirm attempts
      cur).mpr ⟨hyes, hmatch⟩
  have hr : AddOrUpdateEnvVarSecure (.ok content) origInput key value confirm
      attempts writeFails =
      ⟨false, true, writeFails,
        [insertEnv (readEnvContent content) key value]⟩ := by
    simp [AddOrUpdateEnvVarSecure, hpresent, hp]
  refine ⟨by rw [hr], by rw [hr], lookupEnv_insertEnv_self _ _ _,
    fun q hq => lookupEnv_insertEnv_ne _ _ _ _ hq, ?_⟩
  rw [hr]
  cases writeFails <;> simp [outcomeOf]

/-- Witness for C1 at a concrete store and input stream. -/
theorem C1_present_yes_match_updated_witness :
    (AddOrUpdateEnvVarSecure (.ok ("A=1\n").data) ("a").data ("A").data
        ("2").data ("yes").data [("1").data] false).updated = true :=
  (C1_present_yes_match_updated ("A=1\n").data ("a").data ("A").data
    ("2").data ("yes").data [("1").data] false ("1").data (by decide)
    (by decide) ⟨0, by decide, by decide⟩).1

/-- Claim C2: when `canonicalKey` is already present, a non-`yes` intent
answer, or 3 re-entry attempts that all fail to match the stored value,
yields the `Cancelled` triple `(false, false, nil)` with no write performed
(so the mapping on disk, in particular the stored value of the key, is
untouched). -/
theorem C2_present_cancelled_no_write
    (content origInput key value confirm : Str) (attempts : List Str)
    (writeFails : Bool) (cur : Str)
    (hpresent : lookupEnv (readEnvContent content) key = some cur)
    (hcancel : (trimSpace confirm).map goToLower ≠ "yes".data ∨
      ∀ i, i < 3 → trimSpace (attempts.getD i []) ≠ cur) :
    AddOrUpdateEnvVarSecure (.ok content) origInput key value confirm
        attempts writeFails = ⟨false, false, false, []⟩ ∧
    outcomeOf (AddOrUpdateEnvVarSecure (.ok content) origInput key value
        confirm attempts writeFails) = Outcome.cancelled ∧
    (AddOrUpdateEnvVarSecure (.ok content) origInput key value confirm
        attempts writeFails).writes = [] := by
  have hp : promptOverwriteConfirmation origInput confirm attempts cur
      = false := by
    rw [Bool.eq_false_iff]
    intro h
    obtain ⟨hyes, i, hi, he⟩ :=
      (promptOverwriteConfirmation_true_iff origInput confirm attempts
        cur).mp h
    rcases hcancel with hc | hc
    · exact hc hyes
    · exact hc i hi he
  have hr : AddOrUpdateEnvVarSecure (.ok content) origInput key value confirm
      attempts writeFails = ⟨false, false, false, []⟩ := by
    simp [AddOrUpdateEnvVarSecure, hpresent, hp]
  exact ⟨hr, by rw [hr]; rfl, by rw [hr]⟩

/-- Witness for C2 at a concrete store, with a `no` intent answer. -/
theorem C2_present_cancelled_no_write_witness :
    AddOrUpdateEnvVarSecure (.ok ("A=1\n").data) ("a").data ("A").data
        ("2").data ("no").data [] false = ⟨false, false, false, []⟩ :=
  (C2_present_cancelled_no_write ("A=1\n").data ("a").data ("A").data
    ("2").data ("no").data [] false ("1").data (by decide)
    (Or.inl (by decide))).1

/-- Claim C3: on a store not containing `canonicalKey` (and a succeeding
write), `upsert` reports `Added`, writes exactly the extended mapping, and
that mapping maps the key to the supplied value and leaves every entry of
any other key exactly as before. -/
theorem C3_absent_added_frame
    (content origInput key value confirm : Str) (attempts : List Str)
    (habsent : lookupEnv (readEnvContent content) key = none) :
    outcomeOf (AddOrUpdateEnvVarSecure (.ok content) origInput key value
        confirm attempts false) = Outcome.added ∧
    (AddOrUpdateEnvVarSecure (.ok content) origInput key value confirm
        attempts false).writes =
      [insertEnv (readEnvContent content) key value] ∧
    lookupEnv (insertEnv (readEnvContent content) key value) key =
      some value ∧
    (∀ q, q ≠ key →
      lookupEnv (insertEnv (readEnvContent content) key value) q =
        lookupEnv (readEnvContent content) q) := by
  have hr : AddOrUpdateEnvVarSecure (.ok content) origInput key value confirm
      attempts false =
      ⟨true, false, false,
        [insertEnv (readEnvContent content) key value]⟩ := by
    simp [AddOrUpdateEnvVarSecure, habsent]
  exact ⟨by rw [hr]; rfl, by rw [hr], lookupEnv_insertEnv_self _ _ _,
    fun q hq => lookupEnv_insertEnv_ne _ _ _ _ hq⟩

/-- Witness for C3 at a concrete store missing the key. -/
theorem C3_absent_added_frame_witness :
    outcomeOf (AddOrUpdateEnvVarSecure (.ok ("B=1\n").data) ("a").data
        ("A").data ("2").data [] [] false) = Outcome.added :=
  (C3_absent_added_frame ("B=1\n").data ("a").data ("A").data ("2").data
    [] [] (by decide)).1

/-- Claim C4: every invocation of `upsert` performs at most one file write;
a write happens only on the `Added`/`Updated` paths (the two flags of the
returned triple), and never on a `Cancelled` outcome or on a load failure. -/
theorem C4_at_most_one_write
    (loadedContent : Except Unit Str) (origInput key value confirm : Str)
    (attempts : List Str) (writeFails : Bool) :
    (AddOrUpdateEnvVarSecure loadedContent origInput key value confirm
        attempts writeFails).writes.length ≤ 1 ∧
    ((AddOrUpdateEnvVarSecure loadedContent origInput key value confirm
        attempts writeFails).writes ≠ [] →
      (AddOrUpdateEnvVarSecure loadedContent origInput key value confirm
          attempts writeFails).added = true ∨
      (AddOrUpdateEnvVarSecure loadedContent origInput key value confirm
          attempts writeFails).updated = true) ∧
    (outcomeOf (AddOrUpdateEnvVarSecure loadedContent origInput key value
        confirm attempts writeFails) = Outcome.cancelled →
      (AddOrUpdateEnvVarSecure loadedContent origInput key value confirm
          attempts writeFails).writes = []) ∧
    (∀ e, loadedContent = .error e →
      (AddOrUpdateEnvVarSecure loadedContent origInput key value confirm
          attempts writeFails).writes = []) := by
  cases loadedContent with
  | error e => simp [AddOrUpdateEnvVarSecure, outcomeOf]
  | ok content =>
    cases hl : lookupEnv (readEnvContent content) key with
    | none =>
      refine ⟨?_, ?_, ?_, ?_⟩ <;>
        simp [AddOrUpdateEnvVarSecure, hl, outcomeOf] <;>
        cases writeFails <;> simp
    | some cur =>
      by_cases hp : promptOverwriteConfirmation origInput confirm attempts
          cur = true
      · refine ⟨?_, ?_, ?_, ?_⟩ <;>
          simp [AddOrUpdateEnvVarSecure, hl, hp, outcomeOf] <;>
          cases writeFails <;> simp
      · rw [Bool.not_eq_true] at hp
        refine ⟨?_, ?_, ?_, ?_⟩ <;>
          simp [AddOrUpdateEnvVarSecure, hl, hp, outcomeOf]

/-- Witness for C4 at a concrete cancelled invocation. -/
theorem C4_at_most_one_write_witness :
    (AddOrUpdateEnvVarSecure (.ok ("A=1\n").data) ("a").data ("A").data
        ("2").data ("no").data [] false).writes.length ≤ 1 :=
  (C4_at_most_one_write (.ok ("A=1\n").data) ("a").data ("A").data
    ("2").data ("no").data [] false).1

/-! ### Claims C5-C7: the two validators -/

theorem fv_branch_eq (s : Str) :
    (if !s.isEmpty && s.all isKeyChar then
       if ("_KEY".data).isSuffixOf s then Except.ok (ε := ValidationError) s
       else Except.ok (s ++ "_KEY".data)
     else Except.error ValidationError.InvalidCharacters) =
    (if s.isEmpty || !(s.all isKeyChar) then
       Except.error ValidationError.InvalidCharacters
     else Except.ok (if ("_KEY".data).isSuffixOf s then s
       else s ++ "_KEY".data)) := by
  cases he : s.isEmpty <;> cases ha : s.all isKeyChar <;>
    simp [he, ha] <;>
    by_cases hsf : ['_', 'K', 'E', 'Y'] <:+ s <;> simp [hsf]

/-- Claim C5: `normalize` computes exactly the spec's sequence — trim,
replace spaces by underscores, upper-case, reject unless the result matches
`^[A-Z_]+$`, append `_KEY` only when the string does not already end in
`_KEY`; in particular on `" db password "` and `"already_KEY"` it yields
`"DB_PASSWORD_KEY"` and `"ALREADY_KEY"` (no duplicated suffix). -/
theorem C5_normalize_sequence :
    (∀ raw, formatAndValidateKey raw = normalizeSpec raw) ∧
    formatAndValidateKey (" db password ").data =
      .ok ("DB_PASSWORD_KEY").data ∧
    formatAndValidateKey ("already_KEY").data = .ok ("ALREADY_KEY").data := by
  refine ⟨?_, by decide, by decide⟩
  intro raw
  exact fv_branch_eq
    (((trimSpace raw).map fun c => if c == ' ' then '_' else c).map goToUpper)

/-- Counterexample to claim C6 as stated: the input `"_KEY"` consists only
of letters and punctuation, is not rejected, and the returned key `"_KEY"`
does not match `^[A-Z_]+_KEY$` (the `+` requires at least one character
before the suffix). -/
theorem C6_counterexample :
    (∀ c ∈ ("_KEY").data, isLetterDigitPunct c = true) ∧
    formatAndValidateKey ("_KEY").data = .ok ("_KEY").data ∧
    ¬ keyPatternPlus ("_KEY").data := by
  refine ⟨by decide, by decide, ?_⟩
  rintro ⟨p, hne, _, heq⟩
  have hlen := congrArg List.length heq
  rw [List.length_append] at hlen
  have hp0 : p.length = 0 := by omega
  exact hne (List.eq_nil_of_length_eq_zero hp0)

theorem fv_shape_aux (s : Str) :
    (if !s.isEmpty && s.all isKeyChar then
       if ("_KEY".data).isSuffixOf s then Except.ok (ε := ValidationError) s
       else Except.ok (s ++ "_KEY".data)
     else Except.error ValidationError.InvalidCharacters) =
      Except.error ValidationError.InvalidCharacters ∨
    ∃ t, (if !s.isEmpty && s.all isKeyChar then
       if ("_KEY".data).isSuffixOf s then Except.ok (ε := ValidationError) s
       else Except.ok (s ++ "_KEY".data)
     else Except.error ValidationError.InvalidCharacters) = Except.ok t ∧
      keyPatternStar t := by
  cases hg : !s.isEmpty && s.all isKeyChar with
  | false => left; rfl
  | true =>
    right
    have hg' := hg
    simp only [Bool.and_eq_true] at hg'
    obtain ⟨hne', hall'⟩ := hg'
    have hne : s ≠ [] := by
      intro h
      subst h
      simp at hne'
    have hall : ∀ c ∈ s, isKeyChar c = true := List.all_eq_true.mp hall'
    cases hsf : ("_KEY".data).isSuffixOf s with
    | true =>
      exact ⟨s, rfl, hne, hall, List.isSuffixOf_iff_suffix.mp hsf⟩
    | false =>
      refine ⟨s ++ ("_KEY").data, rfl, by simp, ?_, ⟨s, rfl⟩⟩
      intro c hc
      rcases List.mem_append.mp hc with h | h
      · exact hall c h
      · have hc4 : c = '_' ∨ c = 'K' ∨ c = 'E' ∨ c = 'Y' := by simpa using h
        rcases hc4 with rfl | rfl | rfl | rfl <;> decide

/-- Claim C6 (amended): for every raw input of letters, digits and
punctuation, `normalize` either rejects with `InvalidCharacters` or returns
a string matching `^[A-Z_]*_KEY$` — uppercase letters and underscores only,
ending in `_KEY`, with a possibly empty part before `_KEY`. -/
theorem C6_reject_or_canonical_shape (input : Str)
    (hdom : ∀ c ∈ input, isLetterDigitPunct c = true) :
    formatAndValidateKey input = .error .InvalidCharacters ∨
    ∃ s, formatAndValidateKey input = .ok s ∧ keyPatternStar s := by
  have _ := hdom
  exact fv_shape_aux
    (((trimSpace input).map fun c => if c == ' ' then '_' else c).map
      goToUpper)

/-- Witness for the amended C6 at the concrete input `"db"`. -/
theorem C6_reject_or_canonical_shape_witness :
    formatAndValidateKey ("db").data = .error .InvalidCharacters ∨
    ∃ s, formatAndValidateKey ("db").data = .ok s ∧ keyPatternStar s :=
  C6_reject_or_canonical_shape ("db").data (by decide)

theorem isCyrillic_iff (c : Char) : isCyrillic c = true ↔ CyrillicLetter c := by
  unfold isCyrillic CyrillicLetter
  simp only [Bool.or_eq_true, Bool.and_eq_true, decide_eq_true_eq,
    beq_iff_eq]
  tauto

/-- Claim C7: `validate` rejects with `ForbiddenScript` exactly when the
whitespace-trimmed input contains a Cyrillic letter (the ranges а-я and А-Я
plus ё/Ё), otherwise returns the trimmed string unchanged; in particular
`"пароль"` is rejected and `" secret123 "` yields `"secret123"`. -/
theorem C7_validate_cyrillic_iff :
    (∀ input, validateValue input = .error .ForbiddenScript ↔
      ∃ c ∈ trimSpace input, CyrillicLetter c) ∧
    (∀ input, (¬ ∃ c ∈ trimSpace input, CyrillicLetter c) →
      validateValue input = .ok (trimSpace input)) ∧
    validateValue ("пароль").data = .error .ForbiddenScript ∧
    validateValue (" secret123 ").data = .ok ("secret123").data := by
  have hany : ∀ t : Str, t.any isCyrillic = true ↔ ∃ c ∈ t, CyrillicLetter c := by
    intro t
    rw [List.any_eq_true]
    constructor
    · rintro ⟨c, hc, h⟩
      exact ⟨c, hc, (isCyrillic_iff c).mp h⟩
    · rintro ⟨c, hc, h⟩
      exact ⟨c, hc, (isCyrillic_iff c).mpr h⟩
  refine ⟨?_, ?_, by decide, by decide⟩
  · intro input
    unfold validateValue
    cases h : (trimSpace input).any isCyrillic with
    | true => exact iff_of_true rfl ((hany _).mp h)
    | false =>
      refine iff_of_false (fun hc => Except.noConfusion hc) ?_
      intro hex
      have hb := (hany _).mpr hex
      rw [h] at hb
      exact Bool.false_ne_true hb
  · intro input hno
    unfold validateValue
    have hb : (trimSpace input).any isCyrillic = false := by
      cases hq : (trimSpace input).any isCyrillic with
      | true => exact absurd ((hany _).mp hq) hno
      | false => rfl
    rw [hb]
    rfl

/-- Witness for C7 at the concrete accepted input `"abc"`. -/
theorem C7_validate_cyrillic_iff_witness :
    validateValue ("abc").data = .ok ("abc").data :=
  C7_validate_cyrillic_iff.2.1 ("abc").data (by decide)

/-! ### Claims C9-C10: prompt looping and comment detection -/

theorem promptValidInput_identity (lines : List Str) :
    promptValidInput (fun s => .ok s) lines =
      some (trimSpace (lines.headD []), lines.tail) := by
  cases lines <;> rfl

theorem promptValidInput_skips_invalid
    (v : Str → Except ValidationError Str) (bads lines : List Str)
    (hbad : ∀ b ∈ bads, ∃ e, v (trimSpace b) = .error e) :
    promptValidInput v (bads ++ lines) = promptValidInput v lines := by
  induction bads with
  | nil => rfl
  | cons b bs ih =>
    obtain ⟨e, he⟩ := hbad b (List.mem_cons_self _ _)
    rw [List.cons_append]
    show (match v (trimSpace b) with
      | .ok x => some (x, bs ++ lines)
      | .error _ => promptValidInput v (bs ++ lines)) = _
    rw [he]
    exact ih (fun x hx => hbad x (List.mem_cons_of_mem _ hx))

/-- Counterexample to claim C9 as stated: a run whose first line is the
invalid key `"db1"` terminates with the key rejection instead of re-asking;
the second stdin line (a valid key) is never consumed. -/
theorem C9_counterexample :
    runMain [("db1").data, ("good").data] (.ok []) false =
      .keyRejected := by decide

/-- Claim C9 (amended): every value-validation rejection causes the value
prompt to re-ask indefinitely — any number of invalid lines before a valid
one leaves the accepted value unchanged, so there is no retry limit — but a
key-normalization rejection terminates the run (`main` prints the error and
returns) instead of re-asking. -/
theorem C9_value_reprompts_key_rejection_exits
    (bads : List Str) (good : Str) (rest : List Str) (v : Str)
    (hbad : ∀ b ∈ bads, ∃ e, validateValue (trimSpace b) = .error e)
    (hgood : validateValue (trimSpace good) = .ok v)
    (lines : List Str) (fc : Except Unit Str) (wf : Bool)
    (e : ValidationError)
    (hkey : formatAndValidateKey (trimSpace (lines.headD [])) = .error e) :
    promptValidInput validateValue (bads ++ good :: rest) = some (v, rest) ∧
    runMain lines fc wf = .keyRejected := by
  constructor
  · rw [promptValidInput_skips_invalid _ _ _ hbad]
    show (match validateValue (trimSpace good) with
      | .ok x => some (x, rest)
      | .error _ => promptValidInput validateValue rest) = _
    rw [hgood]
  · unfold runMain
    rw [promptValidInput_identity]
    dsimp only
    rw [hkey]

/-- Witness for the amended C9: one Cyrillic value line is skipped and the
following valid line accepted; a digit-bearing key line ends the run. -/
theorem C9_value_reprompts_key_rejection_exits_witness :
    promptValidInput validateValue [("п").data, ("ok").data] =
      some (("ok").data, []) ∧
    runMain [("db1").data] (.ok []) false = .keyRejected :=
  C9_value_reprompts_key_rejection_exits [("п").data] ("ok").data []
    ("ok").data
    (by
      intro b hb
      rw [List.mem_singleton] at hb
      subst hb
      exact ⟨.ForbiddenScript, by decide⟩)
    (by decide) [("db1").data] (.ok []) false .InvalidCharacters (by decide)

theorem dropWhile_append_single (p : Char → Bool) (xs : Str) (c : Char)
    (hc : p c = false) :
    List.dropWhile p (xs ++ [c]) = List.dropWhile p xs ++ [c] := by
  induction xs with
  | nil => simp [List.dropWhile_cons, hc]
  | cons x xs ih =>
    cases hx : p x with
    | true => simp [List.dropWhile_cons, hx, ih]
    | false => simp [List.dropWhile_cons, hx]

theorem dropWhile_space_append (w l : Str)
    (hw : ∀ x ∈ w, goIsSpace x = true) :
    List.dropWhile goIsSpace (w ++ l) = List.dropWhile goIsSpace l := by
  induction w with
  | nil => rfl
  | cons x xs ih =>
    rw [List.cons_append, List.dropWhile_cons,
      if_pos (hw x (List.mem_cons_self _ _))]
    exact ih (fun y hy => hw y (List.mem_cons_of_mem _ hy))

theorem trimSpace_space_nonspace (w l : Str) (c : Char)
    (hw : ∀ x ∈ w, goIsSpace x = true) (hc : goIsSpace c = false) :
    trimSpace (w ++ c :: l) =
      c :: ((l.reverse.dropWhile goIsSpace).reverse) := by
  unfold trimSpace
  rw [dropWhile_space_append _ _ hw, List.dropWhile_cons,
    if_neg (by simp [hc]), List.reverse_cons,
    dropWhile_append_single _ _ _ hc, List.reverse_append]
  simp

theorem splitFirstEq_append (p l : Str) (hp : '=' ∉ p) :
    splitFirstEq (p ++ l) =
      match splitFirstEq l with
      | some (k, v) => some (p ++ k, v)
      | none => none := by
  induction p with
  | nil =>
    rw [List.nil_append]
    cases h : splitFirstEq l with
    | none => rfl
    | some kv => obtain ⟨k, v⟩ := kv; simp
  | cons c p ih =>
    have hc : ¬ (c = '=') := fun h => hp (by rw [h]; exact List.mem_cons_self _ _)
    have hp' : '=' ∉ p := fun h => hp (List.mem_cons_of_mem _ h)
    rw [List.cons_append]
    simp only [splitFirstEq]
    rw [if_neg hc, ih hp']
    cases h : splitFirstEq l with
    | none => rfl
    | some kv => obtain ⟨k, v⟩ := kv; rfl

theorem splitFirstEq_isSome (l : Str) (h : '=' ∈ l) :
    (splitFirstEq l).isSome = true := by
  induction l with
  | nil => cases h
  | cons c rest ih =>
    by_cases hc : c = '='
    · simp [splitFirstEq, hc]
    · have hmem : '=' ∈ rest := by
        rcases List.mem_cons.mp h with h1 | h1
        · exact absurd h1.symm hc
        · exact h1
      have hsome := ih hmem
      simp only [splitFirstEq]
      rw [if_neg hc]
      cases hs : splitFirstEq rest with
      | none => rw [hs] at hsome; simp at hsome
      | some kv => obtain ⟨k, v⟩ := kv; rfl

/-- Claim C10: a line that starts with (nonempty) whitespace followed by
`'#'` and contains an `'='` is not treated as a comment by the store
reader: the line splits at its first `'='` and an entry is inserted whose
key — the trimmed portion before the `'='` — begins with `'#'`. -/
theorem C10_indented_hash_parsed
    (env : EnvMap) (w rest : Str) (hw1 : w ≠ [])
    (hw : ∀ x ∈ w, goIsSpace x = true) (heq : '=' ∈ rest) :
    ∃ k v, splitFirstEq (w ++ '#' :: rest) = some (k, v) ∧
      processLine env (w ++ '#' :: rest) =
        insertEnv env (trimSpace k) (trimSpace v) ∧
      (trimSpace k).head? = some '#' := by
  have hsome := splitFirstEq_isSome rest heq
  rw [Option.isSome_iff_exists] at hsome
  obtain ⟨kv, hs⟩ := hsome
  obtain ⟨k0, v0⟩ := kv
  have hpne : '=' ∉ (w ++ ['#']) := by
    intro hmem
    rcases List.mem_append.mp hmem with h1 | h1
    · exact absurd (hw _ h1) (by decide)
    · simp at h1
  have hline : w ++ '#' :: rest = (w ++ ['#']) ++ rest := by simp
  have hsplit : splitFirstEq (w ++ '#' :: rest) = some (w ++ '#' :: k0, v0) := by
    rw [hline, splitFirstEq_append _ _ hpne, hs]
    simp
  have hguard : ¬ (trimSpace (w ++ '#' :: rest) = [] ∨
      (w ++ '#' :: rest).head? = some '#') := by
    intro hor
    rcases hor with h1 | h1
    · rw [trimSpace_space_nonspace _ _ _ hw (by decide)] at h1
      exact List.noConfusion h1
    · obtain ⟨x, w', rfl⟩ : ∃ x w', w = x :: w' := by
        cases w with
        | nil => exact absurd rfl hw1
        | cons a b => exact ⟨a, b, rfl⟩
      rw [List.cons_append] at h1
      simp at h1
      exact absurd (h1 ▸ hw x (List.mem_cons_self _ _)) (by decide)
  refine ⟨w ++ '#' :: k0, v0, hsplit, ?_, ?_⟩
  · unfold processLine
    rw [if_neg hguard, hsplit]
  · rw [trimSpace_space_nonspace _ _ _ hw (by decide)]
    rfl

/-- Witness for C10 at the concrete line `" #a=b"`. -/
theorem C10_indented_hash_parsed_witness :
    ∃ k v, splitFirstEq ((" #a=b").data) = some (k, v) ∧
      processLine [] ((" #a=b").data) =
        insertEnv [] (trimSpace k) (trimSpace v) ∧
      (trimSpace k).head? = some '#' :=
  C10_indented_hash_parsed [] [' '] ("a=b").data (by decide) (by decide)
    (by decide)

/-! ### Claim C8: the save/load round trip -/

theorem splitOnNl_no_nl_append (xs ys : Str) (h : '\n' ∉ xs) :
    splitOnNl (xs ++ '\n' :: ys) = xs :: splitOnNl ys := by
  induction xs with
  | nil =>
    show splitOnNl ('\n' :: ys) = [] :: splitOnNl ys
    simp [splitOnNl]
  | cons c xs ih =>
    have hc : ¬ (c = '\n') :=
      fun hcc => h (by rw [hcc]; exact List.mem_cons_self _ _)
    have h' : '\n' ∉ xs := fun hm => h (List.mem_cons_of_mem _ hm)
    rw [List.cons_append]
    simp only [splitOnNl]
    rw [if_neg hc, ih h']

theorem joinNl_split (ls : List Str) (hne : ls ≠ [])
    (hnl : ∀ l ∈ ls, '\n' ∉ l) :
    splitOnNl (joinNl ls ++ ['\n']) = ls ++ [[]] := by
  induction ls with
  | nil => exact absurd rfl hne
  | cons a rest ih =>
    cases rest with
    | nil =>
      have ha : '\n' ∉ a := hnl a (List.mem_cons_self _ _)
      show splitOnNl (a ++ ['\n']) = [a, []]
      rw [show (a ++ ['\n'] : Str) = a ++ '\n' :: [] from rfl,
        splitOnNl_no_nl_append a [] ha]
      rfl
    | cons b rest' =>
      have ha : '\n' ∉ a := hnl a (List.mem_cons_self _ _)
      have hrest : ∀ l ∈ b :: rest', '\n' ∉ l :=
        fun l hl => hnl l (List.mem_cons_of_mem _ hl)
      rw [show joinNl (a :: b :: rest') = a ++ '\n' :: joinNl (b :: rest')
          from rfl,
        List.append_assoc, List.cons_append,
        splitOnNl_no_nl_append a _ ha,
        ih (List.cons_ne_nil _ _) hrest]
      rfl

theorem map_dropFinalCR_id (ls : List Str)
    (h : ∀ l ∈ ls, dropFinalCR l = l) : ls.map dropFinalCR = ls := by
  rw [show ls.map dropFinalCR = ls.map id from List.map_congr_left h,
    List.map_id]

theorem scanLines_writeEnvContent (m : EnvMap) (hm : m ≠ [])
    (hnl : ∀ p ∈ m, '\n' ∉ envLine p)
    (hcr : ∀ p ∈ m, dropFinalCR (envLine p) = envLine p) :
    scanLines (writeEnvContent m) = m.map envLine := by
  have hne : m.map envLine ≠ [] := by
    intro h
    exact hm (List.map_eq_nil.mp h)
  have hnl' : ∀ l ∈ m.map envLine, '\n' ∉ l := by
    intro l hl
    obtain ⟨p, hp, rfl⟩ := List.mem_map.mp hl
    exact hnl p hp
  unfold scanLines writeEnvContent
  rw [joinNl_split _ hne hnl', if_pos (List.getLast?_concat _),
    List.dropLast_concat]
  apply map_dropFinalCR_id
  intro l hl
  obtain ⟨p, hp, rfl⟩ := List.mem_map.mp hl
  exact hcr p hp

theorem getLast?_append_cons (k : Str) (x : Char) (v : Str) :
    (k ++ x :: v).getLast? = (x :: v).getLast? := by
  rw [← List.head?_reverse, ← List.head?_reverse, List.reverse_append]
  exact List.head?_append_of_ne_nil _ (by simp)

theorem getLast?_cons_of_ne_nil (x : Char) (v : Str) (hv : v ≠ []) :
    (x :: v).getLast? = v.getLast? := by
  rw [show (x :: v : Str) = [x] ++ v from rfl, ← List.head?_reverse,
    ← List.head?_reverse, List.reverse_append]
  exact List.head?_append_of_ne_nil _ (by simpa using hv)

theorem head?_append_cons (k : Str) (x : Char) (v : Str) :
    (k ++ x :: v).head? = some (k.headD x) := by
  cases k <;> rfl

theorem optionAll_some (o : Option Char)
    (h : (o.all fun c => !goIsSpace c) = true) (c : Char) (hc : o = some c) :
    goIsSpace c = false := by
  rw [hc] at h
  simpa using h

theorem dropWhile_eq_self_of_head (l : Str)
    (h : ∀ c, l.head? = some c → goIsSpace c = false) :
    List.dropWhile goIsSpace l = l := by
  cases l with
  | nil => rfl
  | cons c t => rw [List.dropWhile_cons, if_neg (by simp [h c rfl])]

theorem trimSpace_eq_self (l : Str)
    (h1 : ∀ c, l.head? = some c → goIsSpace c = false)
    (h2 : ∀ c, l.getLast? = some c → goIsSpace c = false) :
    trimSpace l = l := by
  unfold trimSpace
  rw [dropWhile_eq_self_of_head l h1,
    dropWhile_eq_self_of_head l.reverse
      (fun c hc => h2 c (by rwa [List.head?_reverse] at hc))]
  exact List.reverse_reverse l

theorem splitFirstEq_envLine (k v : Str) (hk : '=' ∉ k) :
    splitFirstEq (k ++ '=' :: v) = some (k, v) := by
  rw [splitFirstEq_append k ('=' :: v) hk,
    show splitFirstEq ('=' :: v) = some ([], v) by simp [splitFirstEq]]
  simp

theorem processLine_entry (env : EnvMap) (k v : Str)
    (h : RoundtripEntryOk (k, v)) :
    processLine env (envLine (k, v)) = insertEnv env k v := by
  obtain ⟨hk_eq, hv_eq, hk_hash, hk_nl, hv_nl, hk_h, hk_l, hv_h, hv_l⟩ := h
  have hline_head : ∀ c, (k ++ '=' :: v).head? = some c →
      goIsSpace c = false := by
    intro c hc
    rw [head?_append_cons] at hc
    cases k with
    | nil =>
      have he : c = '=' := by simpa using hc.symm
      subst he
      decide
    | cons a k' =>
      have he : c = a := by simpa using hc.symm
      subst he
      exact optionAll_some _ hk_h c rfl
  have hline_last : ∀ c, (k ++ '=' :: v).getLast? = some c →
      goIsSpace c = false := by
    intro c hc
    rw [getLast?_append_cons] at hc
    by_cases hvnil : v = []
    · subst hvnil
      have he : c = '=' := by simpa using hc.symm
      subst he
      decide
    · rw [getLast?_cons_of_ne_nil _ _ hvnil] at hc
      exact optionAll_some _ hv_l c hc
  have htrim_line : trimSpace (k ++ '=' :: v) = k ++ '=' :: v :=
    trimSpace_eq_self _ hline_head hline_last
  have htrim_k : trimSpace k = k :=
    trimSpace_eq_self _ (fun c hc => optionAll_some _ hk_h c hc)
      (fun c hc => optionAll_some _ hk_l c hc)
  have htrim_v : trimSpace v = v :=
    trimSpace_eq_self _ (fun c hc => optionAll_some _ hv_h c hc)
      (fun c hc => optionAll_some _ hv_l c hc)
  have hguard : ¬ (trimSpace (k ++ '=' :: v) = [] ∨
      (k ++ '=' :: v).head? = some '#') := by
    intro hor
    rcases hor with h1 | h1
    · rw [htrim_line] at h1
      simp at h1
    · rw [head?_append_cons] at h1
      have h2 : k.headD '=' = '#' := by simpa using h1
      cases k with
      | nil => exact absurd h2 (by decide)
      | cons a k' =>
        have ha : a = '#' := by simpa using h2
        subst ha
        exact hk_hash rfl
  have hstep : processLine env (envLine (k, v)) =
      insertEnv env (trimSpace k) (trimSpace v) := by
    unfold processLine envLine
    rw [if_neg hguard, splitFirstEq_envLine k v hk_eq]
  rw [hstep, htrim_k, htrim_v]

theorem foldl_processLine_entries (m : EnvMap) :
    (∀ p ∈ m, RoundtripEntryOk p) →
    ∀ env0, (m.map envLine).foldl processLine env0 =
      m.foldl (fun e p => insertEnv e p.1 p.2) env0 := by
  induction m with
  | nil => intro _ env0; rfl
  | cons p rest ih =>
    intro hgood env0
    obtain ⟨k, v⟩ := p
    rw [List.map_cons, List.foldl_cons, List.foldl_cons,
      processLine_entry env0 k v (hgood (k, v) (List.mem_cons_self _ _))]
    exact ih (fun q hq => hgood q (List.mem_cons_of_mem _ hq))
      (insertEnv env0 k v)

theorem lookupEnv_eq_none_of_not_mem (m : EnvMap) (q : Str)
    (h : q ∉ m.map Prod.fst) : lookupEnv m q = none := by
  induction m with
  | nil => rfl
  | cons p rest ih =>
    obtain ⟨k, v⟩ := p
    have hk : ¬ (k = q) := by
      intro he
      apply h
      rw [List.map_cons, ← he]
      exact List.mem_cons_self _ _
    rw [show lookupEnv ((k, v) :: rest) q =
        (if k = q then some v else lookupEnv rest q) from rfl, if_neg hk]
    refine ih (fun hm => h ?_)
    rw [List.map_cons]
    exact List.mem_cons_of_mem _ hm

theorem lookupEnv_foldl_insert (m : EnvMap) :
    (m.map Prod.fst).Nodup →
    ∀ env0 q,
      lookupEnv (m.foldl (fun e p => insertEnv e p.1 p.2) env0) q =
        (match lookupEnv m q with
         | some v => some v
         | none => lookupEnv env0 q) := by
  induction m with
  | nil => intro _ env0 q; rfl
  | cons p rest ih =>
    intro hnd env0 q
    obtain ⟨k, v⟩ := p
    rw [List.map_cons] at hnd
    obtain ⟨hknotin, hnd'⟩ := List.nodup_cons.mp hnd
    rw [List.foldl_cons, ih hnd' (insertEnv env0 k v) q]
    by_cases hkq : k = q
    · subst hkq
      have hcons : lookupEnv ((k, v) :: rest) k = some v := by
        show (if k = k then some v else lookupEnv rest k) = some v
        rw [if_pos rfl]
      rw [hcons, lookupEnv_eq_none_of_not_mem rest k hknotin]
      show lookupEnv (insertEnv env0 k v) k = some v
      exact lookupEnv_insertEnv_self env0 k v
    · have hcons : lookupEnv ((k, v) :: rest) q = lookupEnv rest q := by
        show (if k = q then some v else lookupEnv rest q) = lookupEnv rest q
        rw [if_neg hkq]
      rw [hcons, lookupEnv_insertEnv_ne env0 k v q (fun he => hkq he.symm)]

/-- Counterexample to claim C8 as stated: the single-entry mapping
`{"A" ↦ " v"}` satisfies all of the claim's premises — no `'='`, no
`'#'`-prefix, no newline in key or value, distinct keys — yet saving and
loading yields `{"A" ↦ "v"}`: the reader trims the value, so the round
trip is not the identity. -/
theorem C8_counterexample :
    (([(("A").data, (" v").data)] : EnvMap).map Prod.fst).Nodup ∧
    '=' ∉ ("A").data ∧ '=' ∉ (" v").data ∧
    ¬ (("A").data.head? = some '#') ∧
    '\n' ∉ ("A").data ∧ '\n' ∉ (" v").data ∧
    lookupEnv (readEnvContent (writeEnvContent
      [(("A").data, (" v").data)])) (("A").data) = some (("v").data) ∧
    lookupEnv [(("A").data, (" v").data)] (("A").data) =
      some ((" v").data) ∧
    ("v").data ≠ (" v").data := by
  refine ⟨?_, ?_, ?_, ?_, ?_, ?_, ?_, ?_, ?_⟩ <;> decide

/-- Claim C8 (amended): for every mapping with pairwise distinct keys whose
keys and values contain no `'='`, no `'#'`-prefix ambiguity, no embedded
newlines, and — the amendment — no leading or trailing whitespace in any
key or value, saving the mapping and loading it back yields a mapping with
exactly the same bindings. -/
theorem C8_save_load_roundtrip (m : EnvMap)
    (hnd : (m.map Prod.fst).Nodup)
    (hgood : ∀ p ∈ m, RoundtripEntryOk p) :
    ∀ q, lookupEnv (readEnvContent (writeEnvContent m)) q = lookupEnv m q := by
  intro q
  by_cases hm : m = []
  · subst hm
    rfl
  · have hnl : ∀ p ∈ m, '\n' ∉ envLine p := by
      intro p hp hmem
      obtain ⟨_, _, _, h4, h5, _⟩ := hgood p hp
      simp only [envLine] at hmem
      rcases List.mem_append.mp hmem with hh | hh
      · exact h4 hh
      · rcases List.mem_cons.mp hh with hh1 | hh1
        · exact absurd hh1 (by decide)
        · exact h5 hh1
    have hcr : ∀ p ∈ m, dropFinalCR (envLine p) = envLine p := by
      intro p hp
      obtain ⟨_, _, _, _, _, _, _, _, h9⟩ := hgood p hp
      have hlast_ne : ¬ ((envLine p).getLast? = some '\r') := by
        intro hlast
        simp only [envLine] at hlast
        rw [getLast?_append_cons] at hlast
        by_cases hv : p.2 = []
        · rw [hv] at hlast
          exact absurd (by simpa using hlast.symm : '\r' = '=') (by decide)
        · rw [getLast?_cons_of_ne_nil _ _ hv] at hlast
          exact absurd (optionAll_some _ h9 '\r' hlast) (by decide)
      unfold dropFinalCR
      rw [if_neg hlast_ne]
    unfold readEnvContent
    rw [scanLines_writeEnvContent m hm hnl hcr,
      foldl_processLine_entries m hgood [],
      lookupEnv_foldl_insert m hnd [] q]
    cases hl : lookupEnv m q <;> rfl

/-- Witness for the amended C8 at a concrete two-entry mapping. -/
theorem C8_save_load_roundtrip_witness :
    lookupEnv (readEnvContent (writeEnvContent
      [(("A").data, ("1").data), (("B").data, ("xy").data)]))
      (("B").data) =
    lookupEnv [(("A").data, ("1").data), (("B").data, ("xy").data)]
      (("B").data) :=
  C8_save_load_roundtrip
    [(("A").data, ("1").data), (("B").data, ("xy").data)]
    (by decide) (by decide) (("B").data)
